import Mathlib

/-!
A shallow embedding, in Lean 4, of the core logic of
`src/scripts/asana_sync.py` (the PR-to-Asana sync script), together with
theorems settling the specification claims about it.

Python strings are modelled as `List Char` (the script only manipulates
them character by character); Python's `str.isdigit`, `\s`/whitespace and
`str.rstrip` are modelled at the ASCII level, which covers every character
class the script's own data mentions.
-/

/-- Python strings are modelled as lists of characters. -/
abbrev Str := List Char

/-- Convert a Lean string literal to the `List Char` model. -/
def str (s : String) : Str := s.toList

/-- Model of Python's whitespace class (`\s` in `re`, for the ASCII range):
space, tab, carriage return, newline. -/
def ws (c : Char) : Bool := c.isWhitespace

/-- The fixed domain prefix of the regex
`https://app\.asana\.com/\S+` in `get_asana_urls` (line 41). -/
def URLP : Str :=
  ['h', 't', 't', 'p', 's', ':', '/', '/', 'a', 'p', 'p', '.',
   'a', 's', 'a', 'n', 'a', '.', 'c', 'o', 'm', '/']

/-- The trailing stop-set of `url.rstrip(')]}>.,;:"\'')` (line 46):
`)`, `]`, `}`, `>`, `.`, `,`, `;`, `:`, double quote, single quote. -/
def stopSet : List Char :=
  [')', ']', '}', '>', '.', ',', ';', ':', Char.ofNat 34, Char.ofNat 39]

/-- Python's `url.rstrip(stopSet)` (line 46): remove every trailing
character that belongs to the stop-set. -/
def rstripStop (s : Str) : Str :=
  ((s.reverse).dropWhile (fun c => decide (c ∈ stopSet))).reverse

/-- Model of `re.findall(r'https://app\.asana\.com/\S+', body)` (line 41),
with explicit fuel to keep the recursion structural: scan left to right;
at a position where the literal domain prefix occurs and is followed by at
least one further non-whitespace character, emit the maximal
non-whitespace-extended match (the greedy `\S+`) and resume after it;
otherwise advance one character.  One character is consumed per unit of
fuel, so any fuel `≥ length` gives the regex semantics. -/
def findUrlsF : Nat → Str → List Str
  | 0, _ => []
  | _ + 1, [] => []
  | fuel + 1, c :: cs =>
    if URLP.isPrefixOf (c :: cs) then
      let rest := (c :: cs).drop URLP.length
      let tail := rest.takeWhile (fun ch => !ws ch)
      if tail = [] then findUrlsF fuel cs
      else (URLP ++ tail) :: findUrlsF fuel (rest.drop tail.length)
    else findUrlsF fuel cs

/-- The raw regex matches of `get_asana_urls`, with canonical fuel. -/
def findUrls (s : Str) : List Str := findUrlsF s.length s

/-- Model of `get_asana_urls(pr_body)` (lines 31-49): the `if not pr_body` guard,
the regex scan, the per-match trailing `rstrip`, and `list(set(...))`.
Python's `set` iterates in an unspecified order, so the final
deduplication is modelled by `List.dedup`; every claim about the result
is order-independent (membership, uniqueness, elementwise facts, and
singleton results, which are order-free). -/
def get_asana_urls (pr_body : Str) : List Str :=
  if pr_body = [] then []
  else ((findUrls pr_body).map rstripStop).dedup

/-- Python's `s.split(q)` for a one-character separator: `"a//b"` splits
into `["a", "", "b"]` and `""` splits into `[""]`. -/
def splitOnChar (q : Char) : Str → List Str
  | [] => [[]]
  | c :: cs =>
    if c = q then [] :: splitOnChar q cs
    else
      match splitOnChar q cs with
      | [] => [[c]]
      | h :: t => (c :: h) :: t

/-- Python's `part.isdigit()` (line 90), at the ASCII level: non-empty and
every character a decimal digit.  (Python's `isdigit` also accepts some
non-ASCII digit characters; the script's data is ASCII.) -/
def isdigitStr (s : Str) : Bool := !s.isEmpty && s.all Char.isDigit

/-- The `for part in reversed(parts): if part.isdigit(): return part`
loop of `get_task_id_from_url` (lines 89-93), applied to an
already-reversed list. -/
def revFind : List Str → Option Str
  | [] => none
  | p :: ps => if isdigitStr p then some p else revFind ps

/-- Model of `get_task_id_from_url(url)` (lines 74-93): drop the query string
(`url.split('?')[0]`), split on `/`, keep the truthy (non-empty) parts,
and return the first all-digit part scanning from the end. -/
def get_task_id_from_url (url : Str) : Option Str :=
  let url_path := (splitOnChar '?' url).headD []
  let parts := splitOnChar '/' url_path
  let parts := parts.filter (fun p => !p.isEmpty)
  revFind parts.reverse

/-- The Identifier Resolver as the specification words it (§4.2 of the
spec, used for the refinement claim C1): strip everything from the first
`?` onward, split the remainder on `/`, discard empty segments, and scan
the segments from the end toward the start, returning the first segment
composed entirely of decimal digits. -/
def resolve_spec (url : Str) : Option Str :=
  let noQuery := url.takeWhile (fun ch => decide (ch ≠ '?'))
  let segs := (splitOnChar '/' noQuery).filter (fun p => decide (p ≠ []))
  segs.reverse.find? (fun s => s.all Char.isDigit)

/-- A routing rule of the YAML configuration: `team`, `paths` (the glob
pattern set handed to `pathspec`), `text` (lines 62-65). -/
structure Rule where
  team : Str
  paths : List Str
  text : Str
deriving DecidableEq

/-- Model of `pathspec.PathSpec.from_lines('gitwildmatch', paths).match_file(f)`
(lines 67-69).  `pathspec` is a third-party library, so the single-pattern
gitwildmatch test is abstracted as a parameter `gw : pattern → file →
Bool`; a pattern set matches a file when some pattern in it matches (the
library's semantics for pattern sets without negation patterns, which is
also what the spec asserts).  With no patterns, nothing matches. -/
def match_file (gw : Str → Str → Bool) (paths : List Str) (f : Str) : Bool :=
  paths.any fun p => gw p f

/-- The rule loop of `get_matching_rules` (lines 62-72): for each rule in
declaration order, keep `{'team': ..., 'text': ...}` when
`any(spec.match_file(f) for f in changed_files)`. -/
def matchRules (gw : Str → Str → Bool) (changed_files : List Str) :
    List Rule → List (Str × Str)
  | [] => []
  | r :: rs =>
    if changed_files.any (fun f => match_file gw r.paths f) then
      (r.team, r.text) :: matchRules gw changed_files rs
    else matchRules gw changed_files rs

/-- Model of `get_matching_rules(changed_files, config)` (lines 51-72): a falsy
config — or one without a `rules` section — is modelled as `none` and
yields no matches; otherwise the rule loop runs. -/
def get_matching_rules (gw : Str → Str → Bool) (changed_files : List Str)
    (config : Option (List Rule)) : List (Str × Str) :=
  match config with
  | none => []
  | some rules => matchRules gw changed_files rules

/-- The literal `"</body>"` used by `append_to_html_notes`. -/
def BODY_CLOSE : Str := ['<', '/', 'b', 'o', 'd', 'y', '>']

/-- The literal `"<body>"` used by `append_to_html_notes`. -/
def OPEN_BODY : Str := ['<', 'b', 'o', 'd', 'y', '>']

/-- Python's `sub in s` for strings: contiguous-substring test
(`append_html in current_html`, line 249, and
`"</body>" in current_html`, line 104). -/
def hasInfix (pat : Str) : Str → Bool
  | [] => pat.isEmpty
  | c :: cs => pat.isPrefixOf (c :: cs) || hasInfix pat cs

/-- Python's `current.replace("</body>", sub)` (line 105), with explicit
fuel to keep the recursion structural: scan left to right; at each
occurrence of `"</body>"` emit `sub` instead and resume after the
occurrence (Python `str.replace` replaces every non-overlapping
occurrence, left to right, and does not rescan the replacement).  One
character is consumed per unit of fuel, so any fuel `≥ length` gives the
Python semantics. -/
def replaceBCF (sub : Str) : Nat → Str → Str
  | 0, s => s
  | fuel + 1, s =>
    match s with
    | [] => []
    | c :: cs =>
      if BODY_CLOSE.isPrefixOf (c :: cs) then
        sub ++ replaceBCF sub fuel ((c :: cs).drop BODY_CLOSE.length)
      else c :: replaceBCF sub fuel cs

/-- Model of `current.replace("</body>", sub)` with canonical fuel. -/
def replaceBC (sub s : Str) : Str := replaceBCF sub s.length s

/-- Model of `append_to_html_notes(current_html, append_text_html)` (lines
95-108): an empty (falsy) document becomes a minimal
`<body>...</body>` document; a document containing `"</body>"` has the
block substituted in front of the closing tag via `str.replace`;
otherwise the block is appended. -/
def append_to_html_notes (current_html append_text_html : Str) : Str :=
  if current_html = [] then OPEN_BODY ++ append_text_html ++ BODY_CLOSE
  else if hasInfix BODY_CLOSE current_html then
    replaceBC (append_text_html ++ BODY_CLOSE) current_html
  else current_html ++ append_text_html

/-- The note-merge step of `main` (lines 224-257) as the spec's Note
Merger contract `merge(existingDocument, composedBlock)`: the empty-block
guard models `if matched_rules:` (the composed block built on line 229 is
empty exactly when no rules matched, since a non-empty rule list always
yields a block starting with `"<br><br>"`); the presence guard models
`if append_html in current_html` (line 249); otherwise the block is
merged with `append_to_html_notes` and written back. -/
def merge_notes (current_html append_html : Str) : Str × Bool :=
  if append_html = [] then (current_html, false)
  else if hasInfix append_html current_html then (current_html, false)
  else (append_to_html_notes current_html append_html, true)

/-- The comment body built in `main` (lines 184-193), from the f-string
pieces in the source's own grouping; `pr_body` is optional and a missing
body is substituted by the empty string (`safe_body`). -/
def comment_text (pr_title pr_html_url pr_user_login pr_head_ref pr_base_ref : Str)
    (pr_body : Option Str) : Str :=
  let safe_body := match pr_body with | none => [] | some b => b
  str "Pull Request merged: " ++ pr_title ++ str "\n" ++
  (str "URL: " ++ pr_html_url ++ str "\n") ++
  (str "Author: " ++ pr_user_login ++ str "\n") ++
  (str "Branch: " ++ pr_head_ref ++ str " -> " ++ pr_base_ref ++ str "\n") ++
  str "\n" ++
  safe_body

/-- The comment body as the specification words it (§6, used for the
refinement claim C9): the single template
`"Pull Request merged: {title}\nURL: {url}\nAuthor: {author}\nBranch: {head} -> {base}\n\n{description}"`. -/
def comment_spec (title url author head base desc : Str) : Str :=
  str "Pull Request merged: " ++ title ++ str "\nURL: " ++ url ++
  str "\nAuthor: " ++ author ++ str "\nBranch: " ++ head ++ str " -> " ++
  base ++ str "\n\n" ++ desc

/-! ### Basic facts about the split used by the resolver -/

theorem splitOnChar_ne_nil (q : Char) (s : Str) : splitOnChar q s ≠ [] := by
  induction s with
  | nil => simp [splitOnChar]
  | cons c cs ih =>
    simp only [splitOnChar]
    split
    · simp
    · split <;> simp

theorem splitOnChar_headD (q : Char) (s : Str) :
    (splitOnChar q s).headD [] = s.takeWhile (fun c => decide (c ≠ q)) := by
  induction s with
  | nil => rfl
  | cons c cs ih =>
    simp only [splitOnChar, List.takeWhile_cons]
    by_cases h : c = q
    · subst h; simp
    · rcases hsp : splitOnChar q cs with _ | ⟨h0, t0⟩
      · exact absurd hsp (splitOnChar_ne_nil q cs)
      · rw [hsp] at ih
        simp only [List.headD_cons] at ih
        simp [h, hsp, ih]

theorem filter_isEmpty_eq (l : List Str) :
    l.filter (fun p => !p.isEmpty) = l.filter (fun p => decide (p ≠ [])) := by
  apply List.filter_congr
  intro p _
  cases p <;> simp

theorem revFind_eq_find (l : List Str) : revFind l = l.find? isdigitStr := by
  induction l with
  | nil => rfl
  | cons p ps ih =>
    by_cases h : isdigitStr p = true
    · simp [revFind, h, List.find?_cons_of_pos]
    · rw [Bool.not_eq_true] at h
      simp [revFind, h, List.find?_cons_of_neg, ih]

theorem find_digit_congr (l : List Str) (h : ∀ p ∈ l, p ≠ []) :
    l.find? (fun s => s.all Char.isDigit) = l.find? isdigitStr := by
  induction l with
  | nil => rfl
  | cons p ps ih =>
    have hp : p ≠ [] := h p (List.mem_cons_self ..)
    have hpred : (p.all Char.isDigit) = isdigitStr p := by
      simp [isdigitStr, List.isEmpty_iff, hp]
    by_cases hd : isdigitStr p = true
    · rw [List.find?_cons_of_pos _ (hpred ▸ hd), List.find?_cons_of_pos _ hd]
    · rw [Bool.not_eq_true] at hd
      rw [List.find?_cons_of_neg _ (by simp [hpred, hd]),
        List.find?_cons_of_neg _ (by simp [hd])]
      exact ih fun p hp => h p (List.mem_cons_of_mem _ hp)

/-- C1.  For every reference URL, identifier resolution strips any
query-string suffix (everything from the first `?` onward), splits on
`/`, discards empty segments, and scans the segments from the end toward
the start, returning the first all-decimal-digit segment, or `none` when
no such segment exists; in particular the reference
`https://app.asana.com/0/123/456789/f` resolves to `456789` (the trailing
`f` segment is skipped and the numeric prefix segments do not shadow the
identifier). -/
theorem claim_C1 :
    (∀ url, get_task_id_from_url url = resolve_spec url)
    ∧ get_task_id_from_url (str "https://app.asana.com/0/123/456789/f")
        = some (str "456789") := by
  constructor
  · intro url
    show
      revFind (((splitOnChar '/' ((splitOnChar '?' url).headD [])).filter
        (fun p => !p.isEmpty)).reverse)
      = ((splitOnChar '/' (url.takeWhile (fun ch => decide (ch ≠ '?')))).filter
        (fun p => decide (p ≠ []))).reverse.find? (fun s => s.all Char.isDigit)
    rw [splitOnChar_headD, filter_isEmpty_eq, revFind_eq_find]
    refine (find_digit_congr _ ?_).symm
    intro p hp
    rw [List.mem_reverse, List.mem_filter] at hp
    simpa using hp.2
  · decide

theorem revFind_digit (l : List Str) (r : Str) (h : revFind l = some r) :
    isdigitStr r = true := by
  induction l with
  | nil => simp [revFind] at h
  | cons p ps ih =>
    simp only [revFind] at h
    split at h
    · cases h; assumption
    · exact ih h

/-- C7.  Whenever identifier resolution returns a result, the returned
work-item identifier is a non-empty string composed entirely of decimal
digits. -/
theorem claim_C7 (url r : Str) (h : get_task_id_from_url url = some r) :
    r ≠ [] ∧ ∀ c ∈ r, c.isDigit = true := by
  unfold get_task_id_from_url at h
  have hd := revFind_digit _ _ h
  simp only [isdigitStr, Bool.and_eq_true, Bool.not_eq_true', List.isEmpty_iff,
    List.all_eq_true] at hd
  exact ⟨by simpa using hd.1, hd.2⟩

/-- Witness for C7 at a concrete reference URL. -/
theorem claim_C7_witness :
    str "456789" ≠ [] ∧ ∀ c ∈ str "456789", c.isDigit = true :=
  claim_C7 (str "https://app.asana.com/0/123/456789/f") (str "456789") (by decide)

/-- C9.  The comment body built for each resolved identifier equals the
template
`Pull Request merged: {title}\nURL: {url}\nAuthor: {author}\nBranch: {head} -> {base}\n\n{description}`
with the description substituted by the empty string when absent. -/
theorem claim_C9 (title url author head base : Str) (desc : Option Str) :
    comment_text title url author head base desc
      = comment_spec title url author head base (desc.getD []) := by
  cases desc <;>
    simp only [comment_text, comment_spec, Option.getD, str] <;>
    simp only [List.append_assoc] <;> rfl

/-! ### Rule matching -/

/-- C4.  Rule matching returns exactly the rules for which at least one
changed path satisfies at least one glob pattern of the rule's pattern
set, in declaration order; and a rule with an empty pattern set never
appears in the output (dropping all such rules does not change the
result), for any changed paths and any single-pattern glob semantics
`gw`. -/
theorem claim_C4 (gw : Str → Str → Bool) (files : List Str) (rules : List Rule) :
    get_matching_rules gw files (some rules)
      = (rules.filter (fun r => files.any fun f => r.paths.any fun p => gw p f)).map
          (fun r => (r.team, r.text))
    ∧ get_matching_rules gw files (some rules)
      = get_matching_rules gw files (some (rules.filter (fun r => !r.paths.isEmpty))) := by
  constructor
  · show matchRules gw files rules = _
    induction rules with
    | nil => rfl
    | cons r rs ih =>
      by_cases h : files.any (fun f => match_file gw r.paths f) = true
      · have h' : (files.any fun f => r.paths.any fun p => gw p f) = true := h
        simp [matchRules, h, List.filter_cons, h', ih]
      · rw [Bool.not_eq_true] at h
        have h' : (files.any fun f => r.paths.any fun p => gw p f) = false := h
        simp [matchRules, h, List.filter_cons, h', ih]
  · show matchRules gw files rules = matchRules gw files _
    induction rules with
    | nil => rfl
    | cons r rs ih =>
      by_cases hp : r.paths = []
      · have h : files.any (fun f => match_file gw r.paths f) = false := by
          simp [match_file, hp]
        rw [List.filter_cons, if_neg (by simp [List.isEmpty_iff, hp])]
        simp only [matchRules, h, Bool.false_eq_true, if_false]
        exact ih
      · rw [List.filter_cons, if_pos (by simp [List.isEmpty_iff, hp])]
        simp only [matchRules, ih]

/-- C8.  Rule matching is monotonic in the changed-path set: adding a
changed path that satisfies an unmatched rule's pattern set makes the
rule appear in the output, and a rule matched by no changed path can be
deleted from the rule list without changing the output. -/
theorem claim_C8 (gw : Str → Str → Bool) (files files2 : List Str)
    (rules : List Rule) (r : Rule) (p : Str) :
    (r ∈ rules → files.any (fun f => match_file gw r.paths f) = false →
      match_file gw r.paths p = true →
      (r.team, r.text) ∈ get_matching_rules gw (files ++ [p]) (some rules))
    ∧ ((∀ f ∈ files2, match_file gw r.paths f = false) →
      get_matching_rules gw files2 (some rules)
        = get_matching_rules gw files2 (some (rules.filter (fun x => decide (x ≠ r))))) := by
  constructor
  · intro hmem _hun hp
    show (r.team, r.text) ∈ matchRules gw (files ++ [p]) rules
    induction rules with
    | nil => simp at hmem
    | cons x rs ih =>
      rcases List.mem_cons.mp hmem with hx | hx
      · subst hx
        have hc : ((files ++ [p]).any fun f => match_file gw r.paths f) = true := by
          simp [List.any_append, hp]
        simp [matchRules, hc]
      · by_cases hc : ((files ++ [p]).any fun f => match_file gw x.paths f) = true
        · simp [matchRules, hc, List.mem_cons]
          right; exact ih hx
        · rw [Bool.not_eq_true] at hc
          simp [matchRules, hc]
          exact ih hx
  · intro hnone
    show matchRules gw files2 rules = matchRules gw files2 _
    induction rules with
    | nil => rfl
    | cons x rs ih =>
      by_cases hx : x = r
      · subst hx
        have hc : (files2.any fun f => match_file gw x.paths f) = false := by
          rw [List.any_eq_false]
          exact fun f hf => by simp [hnone f hf]
        simp [matchRules, hc, List.filter_cons, ih]
      · rw [List.filter_cons, if_pos (by simp [hx])]
        simp only [matchRules, ih]

/-- Witness for C8: a concrete matcher, rule list and paths exercising
both the path-addition and the path-removal direction. -/
theorem claim_C8_witness :
    ((str "T", str "N") ∈ get_matching_rules (fun p f => p == f) [str "x"]
      (some [⟨str "T", [str "x"], str "N"⟩]))
    ∧ get_matching_rules (fun p f => p == f) [str "a"]
        (some [⟨str "T", [str "x"], str "N"⟩])
      = get_matching_rules (fun p f => p == f) [str "a"]
          (some ([⟨str "T", [str "x"], str "N"⟩].filter
            (fun x => decide (x ≠ ⟨str "T", [str "x"], str "N"⟩)))) := by
  constructor
  · have h := (claim_C8 (fun p f => p == f) [] [str "a"]
      [⟨str "T", [str "x"], str "N"⟩] ⟨str "T", [str "x"], str "N"⟩ (str "x")).1
      (by decide) (by decide) (by decide)
    simpa using h
  · exact (claim_C8 (fun p f => p == f) [] [str "a"]
      [⟨str "T", [str "x"], str "N"⟩] ⟨str "T", [str "x"], str "N"⟩ (str "x")).2
      (by decide)

/-! ### Substring test and `str.replace` -/

theorem hasInfix_iff (pat s : Str) : hasInfix pat s = true ↔ pat <:+: s := by
  induction s with
  | nil =>
    simp [hasInfix, List.isEmpty_iff, List.infix_nil]
  | cons c cs ih =>
    simp only [hasInfix, Bool.or_eq_true, List.isPrefixOf_iff_prefix, ih,
      List.infix_cons_iff]

theorem replaceBCF_nil (sub : Str) (fuel : Nat) : replaceBCF sub fuel [] = [] := by
  cases fuel <;> rfl

theorem replaceBCF_cons (sub : Str) (fuel : Nat) (c : Char) (cs : Str) :
    replaceBCF sub (fuel + 1) (c :: cs)
      = if BODY_CLOSE.isPrefixOf (c :: cs) then
          sub ++ replaceBCF sub fuel ((c :: cs).drop BODY_CLOSE.length)
        else c :: replaceBCF sub fuel cs := by
  rfl

/-- A scan that never sees an occurrence of `</body>` leaves the string
unchanged (for any fuel). -/
theorem replaceBCF_no_occ (sub : Str) (fuel : Nat) (s : Str)
    (h : ¬ BODY_CLOSE <:+: s) : replaceBCF sub fuel s = s := by
  induction fuel generalizing s with
  | zero => rfl
  | succ f ih =>
    cases s with
    | nil => rfl
    | cons c cs =>
      rw [replaceBCF_cons]
      rw [if_neg (by
        rw [List.isPrefixOf_iff_prefix]
        exact fun hp => h hp.isInfix)]
      rw [ih cs (fun hi => h (List.infix_cons hi))]

/-- The marker `</body>` has no nontrivial border: no proper nonempty prefix of it
is also a suffix.  This is what makes occurrences non-overlapping. -/
theorem bodyClose_no_border :
    ∀ k, k < 7 → 0 < k → BODY_CLOSE.drop k ≠ BODY_CLOSE.take (7 - k) := by
  decide

/-- In `pre ++ </body> ++ suf`, if `pre` is non-empty and contains no
occurrence of `</body>`, then `</body>` is not a prefix of the whole
string: the first occurrence really is at position `pre.length`. -/
theorem bodyClose_not_prefix_shifted (pre suf : Str) (hpre : pre ≠ [])
    (hni : ¬ BODY_CLOSE <:+: pre) :
    ¬ BODY_CLOSE <+: pre ++ (BODY_CLOSE ++ suf) := by
  intro h
  rcases le_or_lt BODY_CLOSE.length pre.length with h7 | h7
  · -- the occurrence would fit inside pre
    apply hni
    have htake : BODY_CLOSE = pre.take BODY_CLOSE.length := by
      have h1 := List.prefix_iff_eq_take.mp h
      rw [List.take_append_eq_append_take, Nat.sub_eq_zero_of_le h7,
        List.take_zero, List.append_nil] at h1
      exact h1
    rw [htake]
    exact (List.take_prefix _ _).isInfix
  · -- the occurrence would overlap the real one: a border of </body>
    have hplen : 0 < pre.length := List.length_pos.mpr hpre
    have hpp : pre <+: BODY_CLOSE :=
      List.prefix_of_prefix_length_le (List.prefix_append ..) h (le_of_lt h7)
    obtain ⟨u, hu⟩ := hpp
    obtain ⟨t, ht⟩ := h
    -- ht : BODY_CLOSE ++ t = pre ++ (BODY_CLOSE ++ suf)
    have hbc7 : BODY_CLOSE.length = 7 := by decide
    have hdrop : BODY_CLOSE.drop pre.length = u := by
      rw [← hu, List.drop_left]
    have hlenu : u.length = 7 - pre.length := by
      have hl := congrArg List.length hu
      rw [List.length_append] at hl
      omega
    have hut : u ++ t = BODY_CLOSE ++ suf := by
      have h2 : (pre ++ u) ++ t = pre ++ (BODY_CLOSE ++ suf) := by rw [hu]; exact ht
      rw [List.append_assoc] at h2
      exact List.append_cancel_left h2
    have hupre : u <+: BODY_CLOSE := by
      refine List.prefix_of_prefix_length_le ⟨t, hut⟩ (List.prefix_append ..) ?_
      omega
    have htakeu : u = BODY_CLOSE.take (7 - pre.length) := by
      have h1 := List.prefix_iff_eq_take.mp hupre
      rw [hlenu] at h1
      exact h1
    exact bodyClose_no_border pre.length (by omega) hplen
      (by rw [hdrop, htakeu])

/-- Unfolding of the fueled replace scan on a non-empty string, phrased
with `take`/`drop` so it applies without exposing a cons cell. -/
theorem replaceBCF_succ (sub : Str) (f : Nat) (s : Str) (hs : s ≠ []) :
    replaceBCF sub (f + 1) s
      = if BODY_CLOSE.isPrefixOf s then
          sub ++ replaceBCF sub f (s.drop BODY_CLOSE.length)
        else s.take 1 ++ replaceBCF sub f (s.drop 1) := by
  cases s with
  | nil => exact absurd rfl hs
  | cons c cs => rw [replaceBCF_cons]; simp

/-- When `</body>` occurs exactly once — no occurrence inside `pre`, none
inside `suf` — `str.replace` substitutes exactly that occurrence. -/
theorem replaceBCF_single (sub pre suf : Str) (fuel : Nat)
    (hlen : (pre ++ BODY_CLOSE ++ suf).length ≤ fuel)
    (hpre : ¬ BODY_CLOSE <:+: pre) (hsuf : ¬ BODY_CLOSE <:+: suf) :
    replaceBCF sub fuel (pre ++ BODY_CLOSE ++ suf) = pre ++ sub ++ suf := by
  induction pre generalizing fuel with
  | nil =>
    simp only [List.nil_append] at hlen ⊢
    rcases fuel with _ | f
    · exfalso
      have h7 : (BODY_CLOSE ++ suf).length = 7 + suf.length := by
        rw [List.length_append]; rfl
      omega
    · rw [replaceBCF_succ sub f _ (by simp [BODY_CLOSE])]
      rw [if_pos (List.isPrefixOf_iff_prefix.mpr (List.prefix_append ..))]
      rw [List.drop_left, replaceBCF_no_occ sub f suf hsuf]
  | cons c pre' ih =>
    rcases fuel with _ | f
    · exfalso
      have h1 : 0 < ((c :: pre') ++ BODY_CLOSE ++ suf).length := by simp
      omega
    · rw [replaceBCF_succ sub f _ (by simp)]
      have hcond : ¬ (BODY_CLOSE.isPrefixOf ((c :: pre') ++ BODY_CLOSE ++ suf)) = true := by
        intro h
        apply bodyClose_not_prefix_shifted (c :: pre') suf (by simp) hpre
        rw [← List.append_assoc]
        exact List.isPrefixOf_iff_prefix.mp h
      rw [if_neg hcond]
      have htk : ((c :: pre') ++ BODY_CLOSE ++ suf).take 1 = [c] := rfl
      have hdp : ((c :: pre') ++ BODY_CLOSE ++ suf).drop 1 = pre' ++ BODY_CLOSE ++ suf := rfl
      rw [htk, hdp]
      rw [ih f (by simp at hlen ⊢; omega) (fun hi => hpre (List.infix_cons hi))]
      simp

/-- After a replace pass over a string that does contain `</body>`, the
substituted block occurs in the result. -/
theorem replaceBCF_keeps_block (blk : Str) (fuel : Nat) (s : Str)
    (hlen : s.length ≤ fuel) (hM : BODY_CLOSE <:+: s) :
    blk <:+: replaceBCF (blk ++ BODY_CLOSE) fuel s := by
  induction fuel generalizing s with
  | zero =>
    exfalso
    have hs : s = [] := List.eq_nil_of_length_eq_zero (Nat.le_zero.mp hlen)
    rw [hs, List.infix_nil] at hM
    exact absurd (congrArg List.length hM) (by decide)
  | succ f ih =>
    cases s with
    | nil =>
      exfalso
      rw [List.infix_nil] at hM
      exact absurd (congrArg List.length hM) (by decide)
    | cons c cs =>
      rw [replaceBCF_cons]
      by_cases hp : BODY_CLOSE.isPrefixOf (c :: cs) = true
      · rw [if_pos hp]
        exact ⟨[], BODY_CLOSE ++ replaceBCF (blk ++ BODY_CLOSE) f ((c :: cs).drop BODY_CLOSE.length),
          by simp⟩
      · rw [if_neg hp]
        have hM' : BODY_CLOSE <:+: cs := by
          rcases List.infix_cons_iff.mp hM with h | h
          · exact absurd (List.isPrefixOf_iff_prefix.mpr h) hp
          · exact h
        exact List.infix_cons (ih cs (by simp at hlen; omega) hM')

/-- The merged block always occurs in the output of
`append_to_html_notes`, whichever branch ran. -/
theorem blk_infix_append (cur blk : Str) :
    blk <:+: append_to_html_notes cur blk := by
  unfold append_to_html_notes
  by_cases h0 : cur = []
  · rw [if_pos h0]
    exact ⟨OPEN_BODY, BODY_CLOSE, rfl⟩
  · rw [if_neg h0]
    by_cases h1 : hasInfix BODY_CLOSE cur = true
    · rw [if_pos h1]
      exact replaceBCF_keeps_block blk cur.length cur le_rfl ((hasInfix_iff _ _).mp h1)
    · rw [if_neg h1]
      exact ⟨cur, [], by simp⟩

/-- C2.  The note merge is a no-op with `merged = false` exactly when the
composed block is empty or its exact text already occurs in the existing
document; consequently merging the same non-empty, not-yet-present block
twice gives `merged = true` then `merged = false`, the document unchanged
by the second call. -/
theorem claim_C2 (cur blk : Str) :
    (((merge_notes cur blk).1 = cur ∧ (merge_notes cur blk).2 = false)
      ↔ (blk = [] ∨ blk <:+: cur))
    ∧ (blk ≠ [] → ¬ blk <:+: cur →
        (merge_notes cur blk).2 = true
        ∧ merge_notes (merge_notes cur blk).1 blk = ((merge_notes cur blk).1, false)) := by
  constructor
  · constructor
    · rintro ⟨_h1, h2⟩
      by_cases hb : blk = []
      · exact Or.inl hb
      · right
        by_cases hi : hasInfix blk cur = true
        · exact (hasInfix_iff _ _).mp hi
        · exfalso
          unfold merge_notes at h2
          rw [if_neg hb, if_neg hi] at h2
          simp at h2
    · intro h
      unfold merge_notes
      rcases h with h | h
      · rw [if_pos h]; exact ⟨rfl, rfl⟩
      · by_cases hb : blk = []
        · rw [if_pos hb]; exact ⟨rfl, rfl⟩
        · rw [if_neg hb, if_pos ((hasInfix_iff _ _).mpr h)]; exact ⟨rfl, rfl⟩
  · intro hb hni
    have hif : hasInfix blk cur ≠ true := fun h => hni ((hasInfix_iff _ _).mp h)
    have hm : merge_notes cur blk = (append_to_html_notes cur blk, true) := by
      unfold merge_notes
      rw [if_neg hb, if_neg hif]
    refine ⟨by rw [hm], ?_⟩
    rw [hm]
    show merge_notes (append_to_html_notes cur blk) blk = _
    unfold merge_notes
    rw [if_neg hb, if_pos ((hasInfix_iff _ _).mpr (blk_infix_append cur blk))]

/-- Witness for C2 at the spec's own example document and block. -/
theorem claim_C2_witness :
    (merge_notes (str "<body>X</body>") (str "Y")).2 = true
    ∧ merge_notes (merge_notes (str "<body>X</body>") (str "Y")).1 (str "Y")
      = ((merge_notes (str "<body>X</body>") (str "Y")).1, false) :=
  (claim_C2 (str "<body>X</body>") (str "Y")).2 (by decide) (by decide)

/-- Counterexample to C3 as stated.  Python's `str.replace` replaces
every occurrence of `"</body>"`, so on the document `"</body></body>"`
the code inserts the (previously absent) block `"Y"` twice, producing
`"Y</body>Y</body>"` — which differs from inserting the block immediately
before either single occurrence of the marker
(`"Y</body></body>"` and `"</body>Y</body>"` are the only results of one
insertion immediately before a marker, over the two possible
decompositions of the document around a marker occurrence). -/
theorem claim_C3_counterexample :
    merge_notes (str "</body></body>") (str "Y")
      = (str "Y</body>Y</body>", true)
    ∧ str "Y</body>Y</body>" ≠ str "Y</body></body>"
    ∧ str "Y</body>Y</body>" ≠ str "</body>Y</body>" := by
  exact ⟨by decide, by decide, by decide⟩

/-- C3 (amended).  When the composed block is non-empty and not already
present: with no existing document the result is
`"<body>" + block + "</body>"`; when the document contains the closing
marker `"</body>"`, the block is inserted immediately before each
occurrence — in particular, when the marker occurs exactly once (no
occurrence within `pre` or `suf` of the decomposition
`pre ++ "</body>" ++ suf`), immediately before that marker; a document
without the marker gets the block appended.  `merged = true` in every
case, e.g. merging `"Y"` into `"<body>X</body>"` yields
`"<body>XY</body>"`. -/
theorem claim_C3 (blk pre suf cur : Str) :
    (blk ≠ [] → merge_notes [] blk = (OPEN_BODY ++ blk ++ BODY_CLOSE, true))
    ∧ (blk ≠ [] → ¬ blk <:+: (pre ++ BODY_CLOSE ++ suf)
        → ¬ BODY_CLOSE <:+: pre → ¬ BODY_CLOSE <:+: suf
        → merge_notes (pre ++ BODY_CLOSE ++ suf) blk
            = (pre ++ blk ++ BODY_CLOSE ++ suf, true))
    ∧ (cur ≠ [] → blk ≠ [] → ¬ BODY_CLOSE <:+: cur → ¬ blk <:+: cur
        → merge_notes cur blk = (cur ++ blk, true))
    ∧ merge_notes (str "<body>X</body>") (str "Y")
        = (str "<body>XY</body>", true) := by
  refine ⟨?_, ?_, ?_, by decide⟩
  · intro hb
    unfold merge_notes
    rw [if_neg hb]
    rw [if_neg (by simp [hasInfix, List.isEmpty_iff, hb])]
    unfold append_to_html_notes
    rw [if_pos rfl]
  · intro hb hni hp hs
    unfold merge_notes
    rw [if_neg hb, if_neg (fun h => hni ((hasInfix_iff _ _).mp h))]
    unfold append_to_html_notes
    rw [if_neg (by simp [BODY_CLOSE])]
    rw [if_pos ((hasInfix_iff _ _).mpr ⟨pre, suf, rfl⟩)]
    show (replaceBC (blk ++ BODY_CLOSE) (pre ++ BODY_CLOSE ++ suf), true) = _
    unfold replaceBC
    rw [replaceBCF_single (blk ++ BODY_CLOSE) pre suf _ le_rfl hp hs]
    simp [List.append_assoc]
  · intro hc hb hnm hni
    unfold merge_notes
    rw [if_neg hb, if_neg (fun h => hni ((hasInfix_iff _ _).mp h))]
    unfold append_to_html_notes
    rw [if_neg hc, if_neg (fun h => hnm ((hasInfix_iff _ _).mp h))]

/-- Witness for C3 (amended), at the spec's example document decomposed
around its unique closing marker. -/
theorem claim_C3_witness :
    merge_notes (str "<body>X" ++ BODY_CLOSE ++ []) (str "Y")
      = (str "<body>X" ++ str "Y" ++ BODY_CLOSE ++ [], true) :=
  (claim_C3 (str "Y") (str "<body>X") [] []).2.1
    (by decide) (by decide) (by decide) (by decide)

/-! ### The extraction scan -/

theorem findUrlsF_cons (fuel : Nat) (c : Char) (cs : Str) :
    findUrlsF (fuel + 1) (c :: cs)
      = if URLP.isPrefixOf (c :: cs) then
          (if ((c :: cs).drop URLP.length).takeWhile (fun ch => !ws ch) = [] then
            findUrlsF fuel cs
          else (URLP ++ ((c :: cs).drop URLP.length).takeWhile (fun ch => !ws ch))
            :: findUrlsF fuel (((c :: cs).drop URLP.length).drop
                (((c :: cs).drop URLP.length).takeWhile (fun ch => !ws ch)).length))
        else findUrlsF fuel cs := by
  rfl

/-- The scan result does not depend on the fuel once the fuel covers the
string length (so `findUrls`'s canonical fuel is as good as any). -/
theorem findUrlsF_congr (f1 : Nat) : ∀ (f2 : Nat) (s : Str),
    s.length ≤ f1 → s.length ≤ f2 → findUrlsF f1 s = findUrlsF f2 s := by
  induction f1 with
  | zero =>
    intro f2 s h1 _
    have hs : s = [] := List.eq_nil_of_length_eq_zero (Nat.le_zero.mp h1)
    subst hs
    cases f2 <;> rfl
  | succ f ih =>
    intro f2 s h1 h2
    cases s with
    | nil => cases f2 <;> rfl
    | cons c cs =>
      rcases f2 with _ | g
      · simp at h2
      · rw [findUrlsF_cons f, findUrlsF_cons g]
        simp only [List.length_cons] at h1 h2
        have hU : URLP.length = 22 := by decide
        by_cases hp : URLP.isPrefixOf (c :: cs) = true
        · rw [if_pos hp, if_pos hp]
          by_cases htl : ((c :: cs).drop URLP.length).takeWhile (fun ch => !ws ch) = []
          · rw [if_pos htl, if_pos htl]
            exact ih g cs (by omega) (by omega)
          · rw [if_neg htl, if_neg htl]
            congr 1
            apply ih g
            · simp only [List.length_drop, List.length_cons]; omega
            · simp only [List.length_drop, List.length_cons]; omega
        · rw [if_neg hp, if_neg hp]
          exact ih g cs (by omega) (by omega)

theorem findUrlsF_succ (fuel : Nat) (s : Str) (hs : s ≠ []) :
    findUrlsF (fuel + 1) s
      = if URLP.isPrefixOf s then
          (if (s.drop URLP.length).takeWhile (fun ch => !ws ch) = [] then
            findUrlsF fuel (s.drop 1)
          else (URLP ++ (s.drop URLP.length).takeWhile (fun ch => !ws ch))
            :: findUrlsF fuel ((s.drop URLP.length).drop
                ((s.drop URLP.length).takeWhile (fun ch => !ws ch)).length))
        else findUrlsF fuel (s.drop 1) := by
  cases s with
  | nil => exact absurd rfl hs
  | cons c cs => rfl

/-- A position whose character cannot start the domain prefix is skipped. -/
theorem findUrls_cons_of_no_match (c : Char) (cs : Str)
    (h : ¬ URLP <+: c :: cs) : findUrls (c :: cs) = findUrls cs := by
  show findUrlsF (cs.length + 1) (c :: cs) = _
  rw [findUrlsF_cons]
  rw [if_neg (fun hp => h (List.isPrefixOf_iff_prefix.mp hp))]
  rfl

/-- A whitespace character never starts a match and is skipped. -/
theorem findUrls_ws_cons (c : Char) (cs : Str) (h : ws c = true) :
    findUrls (c :: cs) = findUrls cs := by
  apply findUrls_cons_of_no_match
  intro hp
  rw [show URLP = 'h' :: URLP.tail from rfl] at hp
  rcases List.cons_prefix_cons.mp hp with ⟨hc, -⟩
  rw [← hc] at h
  exact absurd h (by decide)

/-- Leading whitespace does not affect the matches. -/
theorem findUrls_skip_leading_ws (pre s : Str) (h : ∀ x ∈ pre, ws x = true) :
    findUrls (pre ++ s) = findUrls s := by
  induction pre with
  | nil => rfl
  | cons c cp ih =>
    rw [List.cons_append, findUrls_ws_cons c _ (h c (List.mem_cons_self ..)),
      ih fun x hx => h x (List.mem_cons_of_mem _ hx)]

/-- All-whitespace text has no matches. -/
theorem findUrls_all_ws (s : Str) (h : ∀ x ∈ s, ws x = true) :
    findUrls s = [] := by
  have h0 := findUrls_skip_leading_ws s [] h
  simpa using h0

/-- At the start of the domain prefix followed by a non-whitespace token
`t` and then (only) whitespace, the scan emits exactly `URLP ++ t` and
continues after the token. -/
theorem findUrls_match (t rest : Str) (ht : t ≠ []) (htw : ∀ x ∈ t, ws x = false)
    (hrest : ∀ x ∈ rest, ws x = true) :
    findUrls (URLP ++ (t ++ rest)) = (URLP ++ t) :: findUrls rest := by
  have htk : rest.takeWhile (fun ch => !ws ch) = [] := by
    cases rest with
    | nil => rfl
    | cons r rs => simp [List.takeWhile_cons, hrest r (List.mem_cons_self ..)]
  have htw2 : (t ++ rest).takeWhile (fun ch => !ws ch) = t := by
    rw [List.takeWhile_append_of_pos (fun a ha => by simp [htw a ha]), htk,
      List.append_nil]
  have hne : URLP ++ (t ++ rest) ≠ [] := by simp [URLP]
  have hlen : (URLP ++ (t ++ rest)).length
      = URLP.length + (t.length + rest.length) := by simp
  have hU : URLP.length = 22 := by decide
  obtain ⟨n, hn⟩ : ∃ n, (URLP ++ (t ++ rest)).length = n + 1 :=
    ⟨(URLP ++ (t ++ rest)).length - 1, by omega⟩
  show findUrlsF (URLP ++ (t ++ rest)).length _ = _
  rw [hn, findUrlsF_succ n _ hne]
  rw [if_pos (List.isPrefixOf_iff_prefix.mpr (List.prefix_append ..))]
  rw [List.drop_left, htw2, if_neg ht]
  rw [show (t ++ rest).drop t.length = rest from List.drop_left ..]
  congr 1
  exact findUrlsF_congr n rest.length rest (by omega) le_rfl

/-- Every raw match is the domain prefix followed by a non-empty,
whitespace-free token. -/
theorem findUrlsF_mem (fuel : Nat) (s u : Str) (hu : u ∈ findUrlsF fuel s) :
    ∃ t, u = URLP ++ t ∧ t ≠ [] ∧ ∀ c ∈ t, ws c = false := by
  induction fuel generalizing s with
  | zero => simp [findUrlsF] at hu
  | succ f ih =>
    cases s with
    | nil => simp [findUrlsF] at hu
    | cons c cs =>
      rw [findUrlsF_cons] at hu
      by_cases hp : URLP.isPrefixOf (c :: cs) = true
      · rw [if_pos hp] at hu
        by_cases htl : ((c :: cs).drop URLP.length).takeWhile (fun ch => !ws ch) = []
        · rw [if_pos htl] at hu
          exact ih cs hu
        · rw [if_neg htl] at hu
          rcases List.mem_cons.mp hu with h | h
          · refine ⟨_, h, htl, ?_⟩
            intro x hx
            have hpx := List.mem_takeWhile_imp hx
            simpa using hpx
          · exact ih _ h
      · rw [if_neg hp] at hu
        exact ih cs hu

/-! ### The trailing strip -/

theorem mem_rstripStop (s : Str) (c : Char) (h : c ∈ rstripStop s) : c ∈ s := by
  unfold rstripStop at h
  rw [List.mem_reverse] at h
  have hsub := (List.dropWhile_sublist (fun c => decide (c ∈ stopSet))).subset h
  rwa [List.mem_reverse] at hsub

/-- The strip leaves no stop-set character at the end. -/
theorem rstripStop_getLast (s : Str) (c : Char)
    (h : (rstripStop s).getLast? = some c) : c ∉ stopSet := by
  unfold rstripStop at h
  rw [List.getLast?_reverse] at h
  have hh := List.head?_dropWhile_not (fun c => decide (c ∈ stopSet)) s.reverse
  rw [h] at hh
  simpa using hh

/-- Stripping stops at the last character of a block that does not end in
a stop-set character: the strip only eats into the part after it. -/
theorem rstripStop_append (a b : Str)
    (hlast : ∀ d, a.getLast? = some d → d ∉ stopSet) :
    rstripStop (a ++ b) = a ++ rstripStop b := by
  unfold rstripStop
  rw [List.reverse_append, List.dropWhile_append]
  have hself : a.reverse.dropWhile (fun c => decide (c ∈ stopSet)) = a.reverse := by
    cases hr : a.reverse with
    | nil => rfl
    | cons x xs =>
      have hx : a.getLast? = some x := by rw [← List.head?_reverse, hr]; rfl
      rw [List.dropWhile_cons, if_neg (by simp [hlast x hx])]
  by_cases hb : ((b.reverse).dropWhile (fun c => decide (c ∈ stopSet))).isEmpty = true
  · rw [if_pos hb, hself]
    rw [List.isEmpty_iff] at hb
    rw [hb]
    simp
  · rw [if_neg hb, List.reverse_append]
    simp

/-- A string not ending in a stop-set character is left unchanged. -/
theorem rstripStop_eq_self (s : Str)
    (hlast : ∀ d, s.getLast? = some d → d ∉ stopSet) : rstripStop s = s := by
  unfold rstripStop
  cases hr : s.reverse with
  | nil =>
    rw [List.dropWhile_nil]
    have hs : s = [] := by
      have h0 := congrArg List.reverse hr
      simpa using h0
    simp [hs]
  | cons x xs =>
    have hx : s.getLast? = some x := by rw [← List.head?_reverse, hr]; rfl
    rw [List.dropWhile_cons, if_neg (by simp [hlast x hx]), ← hr,
      List.reverse_reverse]

/-- A single stop-set character strips to nothing. -/
theorem rstripStop_single (c : Char) (hc : c ∈ stopSet) : rstripStop [c] = [] := by
  unfold rstripStop
  simp [List.dropWhile_cons, hc]

/-- C6.  For every input text, extraction returns no duplicate elements,
and no returned element ends with a character of the stop-set
`)]}>.,;:"'`. -/
theorem claim_C6 (text : Str) :
    (get_asana_urls text).Nodup
    ∧ ∀ u ∈ get_asana_urls text, ∀ c ∈ stopSet, u.getLast? ≠ some c := by
  unfold get_asana_urls
  by_cases h0 : text = []
  · rw [if_pos h0]
    exact ⟨List.nodup_nil, by simp⟩
  · rw [if_neg h0]
    refine ⟨List.nodup_dedup _, ?_⟩
    intro u hu c hc hlast
    rw [List.mem_dedup, List.mem_map] at hu
    obtain ⟨v, -, hvu⟩ := hu
    rw [← hvu] at hlast
    exact rstripStop_getLast v c hlast hc

/-- Witness for C6 at a concrete text whose reference carries trailing
punctuation. -/
theorem claim_C6_witness :
    (get_asana_urls (str "See https://app.asana.com/0/1.")).Nodup
    ∧ (str "https://app.asana.com/0/1").getLast? ≠ some '.' :=
  ⟨(claim_C6 (str "See https://app.asana.com/0/1.")).1,
    (claim_C6 (str "See https://app.asana.com/0/1.")).2
      (str "https://app.asana.com/0/1") (by decide) '.' (by decide)⟩

/-- C10.  Every normalized reference returned by extraction begins with
the literal domain prefix `https://app.asana.com/` and contains no
whitespace character. -/
theorem claim_C10 (text u : Str) (hu : u ∈ get_asana_urls text) :
    URLP <+: u ∧ ∀ c ∈ u, ws c = false := by
  unfold get_asana_urls at hu
  by_cases h0 : text = []
  · rw [if_pos h0] at hu
    simp at hu
  · rw [if_neg h0] at hu
    rw [List.mem_dedup, List.mem_map] at hu
    obtain ⟨v, hv, hvu⟩ := hu
    obtain ⟨t, hvt, -, htw⟩ := findUrlsF_mem text.length text v hv
    subst hvt
    have hnl : ∀ d, URLP.getLast? = some d → d ∉ stopSet := by decide
    rw [rstripStop_append URLP t hnl] at hvu
    subst hvu
    refine ⟨List.prefix_append .., ?_⟩
    intro c hc
    rcases List.mem_append.mp hc with h | h
    · have hall : ∀ c ∈ URLP, ws c = false := by decide
      exact hall c h
    · exact htw c (mem_rstripStop t c h)

/-- Witness for C10 at a concrete text. -/
theorem claim_C10_witness :
    URLP <+: str "https://app.asana.com/0/1"
    ∧ ∀ c ∈ str "https://app.asana.com/0/1", ws c = false :=
  claim_C10 (str "See https://app.asana.com/0/1.")
    (str "https://app.asana.com/0/1") (by decide)

/-- No stop-set character is whitespace. -/
theorem stop_not_ws : ∀ c ∈ stopSet, ws c = false := by decide

/-- C5.  A reference immediately followed by a single stop-set character
in source text is extracted without that character, and the identifier
resolved from the extracted reference is the same whether or not the
trailing punctuation was present: for a whitespace-free token `t` not
ending in a stop-set character, surrounded by whitespace, the texts
`pre ++ URLP ++ t ++ [c] ++ post` and `pre ++ URLP ++ t ++ post` both
extract exactly `URLP ++ t`, and the resolved identifiers agree. -/
theorem claim_C5 (pre t post : Str) (c : Char) (ht : t ≠ [])
    (htw : ∀ x ∈ t, ws x = false)
    (hlast : ∀ d, t.getLast? = some d → d ∉ stopSet)
    (hc : c ∈ stopSet)
    (hpre : ∀ x ∈ pre, ws x = true) (hpost : ∀ x ∈ post, ws x = true) :
    get_asana_urls (pre ++ (URLP ++ ((t ++ [c]) ++ post))) = [URLP ++ t]
    ∧ get_asana_urls (pre ++ (URLP ++ (t ++ post))) = [URLP ++ t]
    ∧ (get_asana_urls (pre ++ (URLP ++ ((t ++ [c]) ++ post)))).map get_task_id_from_url
      = (get_asana_urls (pre ++ (URLP ++ (t ++ post)))).map get_task_id_from_url := by
  have hUne : ∀ (x : Str), pre ++ (URLP ++ x) ≠ [] := by
    intro x hx
    simp [URLP] at hx
  have hlastU : ∀ d, (URLP ++ t).getLast? = some d → d ∉ stopSet := by
    intro d hd
    rw [List.getLast?_append_of_ne_nil URLP ht] at hd
    exact hlast d hd
  have h1 : get_asana_urls (pre ++ (URLP ++ ((t ++ [c]) ++ post))) = [URLP ++ t] := by
    unfold get_asana_urls
    rw [if_neg (hUne _)]
    rw [findUrls_skip_leading_ws pre _ hpre]
    rw [findUrls_match (t ++ [c]) post (by simp) ?_ hpost]
    · rw [findUrls_all_ws post hpost]
      have hr1 : rstripStop (URLP ++ (t ++ [c])) = URLP ++ t := by
        rw [show URLP ++ (t ++ [c]) = (URLP ++ t) ++ [c] by simp,
          rstripStop_append (URLP ++ t) [c] hlastU, rstripStop_single c hc,
          List.append_nil]
      simp [hr1]
    · intro x hx
      rcases List.mem_append.mp hx with h | h
      · exact htw x h
      · rw [List.mem_singleton.mp h]
        exact stop_not_ws c hc
  have h2 : get_asana_urls (pre ++ (URLP ++ (t ++ post))) = [URLP ++ t] := by
    unfold get_asana_urls
    rw [if_neg (hUne _)]
    rw [findUrls_skip_leading_ws pre _ hpre]
    rw [findUrls_match t post ht htw hpost]
    rw [findUrls_all_ws post hpost]
    have hr2 : rstripStop (URLP ++ t) = URLP ++ t := rstripStop_eq_self _ hlastU
    simp [hr2]
  exact ⟨h1, h2, by rw [h1, h2]⟩

/-- Witness for C5: the spec's own example reference followed by a `.`,
in whitespace context. -/
theorem claim_C5_witness :
    get_asana_urls ([' '] ++ (URLP ++ ((str "0/111/222" ++ ['.']) ++ ['\n'])))
      = [URLP ++ str "0/111/222"]
    ∧ get_asana_urls ([' '] ++ (URLP ++ (str "0/111/222" ++ ['\n'])))
      = [URLP ++ str "0/111/222"]
    ∧ (get_asana_urls ([' '] ++ (URLP ++ ((str "0/111/222" ++ ['.']) ++ ['\n'])))).map
        get_task_id_from_url
      = (get_asana_urls ([' '] ++ (URLP ++ (str "0/111/222" ++ ['\n'])))).map
        get_task_id_from_url :=
  claim_C5 [' '] (str "0/111/222") ['\n'] '.' (by decide) (by decide)
    (by decide) (by decide) (by decide) (by decide)
